import Mathlib

/-!
Verification development for the stopwatch activity's distributed-object core.

The definitions below are a shallow embedding of `src/stopwatch.py` (the
`WatchEvent` and `Model` classes) and `src/dobject.py` (`TubeBox`,
`TimeHandler`, `UnorderedHandler`, `HighScore`, `AddOnlySet`).  Python floats
are embedded as rationals (all times occurring in the statements are exactly
representable), Python sets as lists with membership semantics, and the
per-object locks/threads are elided: every claim is about the sequential
semantics of a single delivery order, so each operation is modelled as a pure
state transformer.  Listener fan-out and network broadcasts are modelled as
explicit outputs of the transformers.
-/

section RatReducible

attribute [local semireducible] Rat.sub Rat.add Rat.mul Rat.inv

namespace Stopwatch

/-- Event kind constants from `WatchEvent` in `src/stopwatch.py`
(`RUN_EVENT = 1`, `PAUSE_EVENT = 2`, `RESET_EVENT = 3`). -/
def RUN_EVENT : ℕ := 1

/-- Python constant `WatchEvent.PAUSE_EVENT = 2`. -/
def PAUSE_EVENT : ℕ := 2

/-- Python constant `WatchEvent.RESET_EVENT = 3`. -/
def RESET_EVENT : ℕ := 3

/-- Python constant `Model.NUM_WATCHES = 10`. -/
def NUM_WATCHES : ℕ := 10

/-- Python constant `Model.STATE_PAUSED = 1`. -/
def STATE_PAUSED : ℕ := 1

/-- Python constant `Model.STATE_RUNNING = 2`. -/
def STATE_RUNNING : ℕ := 2

/-- A `WatchEvent` from `src/stopwatch.py`: the tuple
`(event_time, event_type, watch_id)`.  Event times are embedded as rationals. -/
structure WatchEvent where
  time : ℚ
  ty : ℕ
  watch : ℕ
deriving DecidableEq, Repr

/-- The comparison key of an event: `WatchEvent.__cmp__` compares the tuple
`(event_time, event_type, watch_id)` lexicographically. -/
def evKey (e : WatchEvent) : ℚ ×ₗ (ℕ ×ₗ ℕ) :=
  toLex (e.time, toLex (e.ty, e.watch))

/-- Strict tuple order on events, as used by `bisect.insort`. -/
def evLt (a b : WatchEvent) : Prop := evKey a < evKey b

/-- Reflexive tuple order on events. -/
def evLe (a b : WatchEvent) : Prop := evKey a ≤ evKey b

instance : DecidableRel evLt := fun a b => by unfold evLt; infer_instance

instance : DecidableRel evLe := fun a b => by unfold evLe; infer_instance

theorem evKey_injective : Function.Injective evKey := by
  intro a b h
  cases a; cases b
  simp only [evKey, toLex_inj, Prod.mk.injEq] at h
  obtain ⟨h1, h2, h3⟩ := h
  simp [h1, h2, h3]

instance : IsTrans WatchEvent evLe := ⟨fun _ _ _ h h' => le_trans h h'⟩

instance : IsAntisymm WatchEvent evLe :=
  ⟨fun _ _ h h' => evKey_injective (le_antisymm h h')⟩

instance : IsTotal WatchEvent evLe := ⟨fun a b => le_total (evKey a) (evKey b)⟩

theorem evLe_of_not_lt {a b : WatchEvent} (h : ¬ evLt a b) : evLe b a :=
  le_of_not_lt h

theorem evLe_of_lt {a b : WatchEvent} (h : evLt a b) : evLe a b := le_of_lt h

/-- Embedding of `bisect.insort(self._history[i], ev)`: insert `e` into a
sorted list, after any elements that compare less than or equal to `e`. -/
def insort (e : WatchEvent) : List WatchEvent → List WatchEvent
  | [] => [e]
  | x :: xs => if evLt e x then e :: x :: xs else x :: insort e xs

/-- One iteration of the state machine loop in `Model._update_state`. -/
def foldEvent : ℕ × ℚ → WatchEvent → ℕ × ℚ
  | (s, timeval), ev =>
    if s = STATE_PAUSED then
      if ev.ty = RUN_EVENT then (STATE_RUNNING, ev.time - timeval)
      else if ev.ty = RESET_EVENT then (s, 0)
      else (s, timeval)
    else if s = STATE_RUNNING then
      if ev.ty = RESET_EVENT then (s, ev.time)
      else if ev.ty = PAUSE_EVENT then (STATE_PAUSED, ev.time - timeval)
      else (s, timeval)
    else (s, timeval)

/-- The deterministic fold of `Model._update_state`: starting from
`init_state[i]`, run the state machine over the per-watch history. -/
def updateState (init : ℕ × ℚ) (w : List WatchEvent) : ℕ × ℚ :=
  w.foldl foldEvent init

/-- The replicated state of `Model` from `src/stopwatch.py`, restricted to the
fields the event log touches: `_known_events` (a Python set, embedded as a
list with membership semantics), `_history` (one sorted event list per watch),
`_init_state` and `_state` (one `(mode, timeval)` pair per watch).  The names,
name-times, offset, listener lists and locks are elided; they do not interact
with the event log. -/
structure Model where
  knownEvents : List WatchEvent
  history : List (List WatchEvent)
  initState : List (ℕ × ℚ)
  state : List (ℕ × ℚ)
deriving DecidableEq, Repr

/-- Initial `Model` state from `Model.__init__`: no known events, empty
per-watch histories, and every watch at `(STATE_PAUSED, 0)`. -/
def Model.init : Model :=
  { knownEvents := []
    history := List.replicate NUM_WATCHES []
    initState := List.replicate NUM_WATCHES (STATE_PAUSED, 0)
    state := List.replicate NUM_WATCHES (STATE_PAUSED, 0) }

/-- Inner loop of `Model.add_history` over one watch's incoming event list
`w`: each event not yet in `_known_events` is added to the set and inserted
into the sorted per-watch history, setting the `changed` flag. -/
def addEvents : List WatchEvent → List WatchEvent → List WatchEvent → Bool →
    List WatchEvent × List WatchEvent × Bool
  | [], known, hist, changed => (known, hist, changed)
  | ev :: rest, known, hist, changed =>
    if ev ∈ known then addEvents rest known hist changed
    else addEvents rest (ev :: known) (insort ev hist) true

/-- Body of `Model.add_history` for one watch index `i`: merge the incoming
events, and if anything changed recompute `_state[i]` via `_update_state`
(`_set_state` writes the recomputed pair). -/
def addHistoryStep (m : Model) (i : ℕ) (w : List WatchEvent) : Model :=
  let r := addEvents w m.knownEvents (m.history.getD i []) false
  let m' : Model := { m with knownEvents := r.1, history := m.history.set i r.2.1 }
  if r.2.2 then
    { m' with state := m'.state.set i (updateState (m'.initState.getD i (STATE_PAUSED, 0)) r.2.1) }
  else m'

/-- Embedding of `Model.add_history(h)`: `h` is a list of per-watch event
lists (the Python code asserts `len(h) == NUM_WATCHES`); the loop runs over
watch indices `0 .. NUM_WATCHES - 1`. -/
def addHistory (h : List (List WatchEvent)) (m : Model) : Model :=
  (List.range NUM_WATCHES).foldl (fun m i => addHistoryStep m i (h.getD i [])) m

/-- Embedding of `Model.reset(trio)` restricted to the event-log fields: the
new `_init_state` is installed, `_history` is cleared, and `_state` is
recomputed by `_update_state` over the now-empty histories.  Note that
`_known_events` is left untouched by the source.  (The names and offset
carried by `trio` are elided along with their fields.) -/
def Model.reset (m : Model) (init : List (ℕ × ℚ)) : Model :=
  { m with
    initState := init
    history := List.replicate NUM_WATCHES []
    state := (List.range NUM_WATCHES).map fun i => updateState (init.getD i (STATE_PAUSED, 0)) [] }

/-- All events stored in a model's per-watch histories. -/
def Model.histEvents (m : Model) : List WatchEvent := m.history.flatten

/-- Fold of `insort` insertions, describing the cumulative effect of the
`bisect.insort` calls performed by `Model.add_history` on one watch. -/
def insortAll (l : List WatchEvent) (hist : List WatchEvent) : List WatchEvent :=
  l.foldl (fun h e => insort e h) hist

/-- An event on watch 0, the watch used by the spec's concrete scenarios. -/
def ev (t : ℚ) (k : ℕ) : WatchEvent := ⟨t, k, 0⟩

/-- The model used by scenario S6 of the spec: a fresh model whose
`init_state` has every watch paused with seven seconds elapsed. -/
def exampleS6 : Model :=
  { knownEvents := []
    history := List.replicate NUM_WATCHES []
    initState := List.replicate NUM_WATCHES (STATE_PAUSED, 7)
    state := List.replicate NUM_WATCHES (STATE_PAUSED, 7) }

end Stopwatch

namespace DObject

/-- Embedding of `TubeBox` from `src/dobject.py`.  The fields `tube` and
`is_initiator` are always assigned together by `insert_tube`, so they are
combined into one optional pair; `listeners` is the ordered callback list.
`L` is the type of listener identities, `C` of channels. -/
structure TubeBox (L C : Type) where
  latched : Option (C × Bool)
  listeners : List L
deriving DecidableEq, Repr

/-- The operations a client can perform on a `TubeBox`:
`TubeBox.register_listener` and `TubeBox.insert_tube`. -/
inductive TBOp (L C : Type) where
  | register (l : L)
  | insert (c : C) (isInit : Bool)
deriving DecidableEq, Repr

/-- One `TubeBox` operation, returning the new box together with the list of
listener invocations `(listener, channel, is_initiator)` it performs.
`register_listener` appends the listener and, if the tube is already present,
invokes it immediately; `insert_tube` stores the tube (unconditionally
overwriting any previous one, as the source does) and invokes every
registered listener. -/
def TubeBox.step {L C : Type} : TubeBox L C → TBOp L C → TubeBox L C × List (L × C × Bool)
  | tb, .register l =>
    ({ tb with listeners := tb.listeners ++ [l] },
      match tb.latched with
      | some (c, b) => [(l, c, b)]
      | none => [])
  | tb, .insert c b =>
    ({ tb with latched := some (c, b) }, tb.listeners.map fun l => (l, c, b))

/-- Run a sequence of `TubeBox` operations, accumulating all listener
invocations in order. -/
def TubeBox.run {L C : Type} (tb : TubeBox L C) :
    List (TBOp L C) → TubeBox L C × List (L × C × Bool)
  | [] => (tb, [])
  | op :: ops =>
    let r := tb.step op
    let r' := r.1.run ops
    (r'.1, r.2 ++ r'.2)

/-- A freshly constructed `TubeBox` (`TubeBox.__init__`): no tube, no
initiator flag, no listeners. -/
def TubeBox.empty {L C : Type} : TubeBox L C := ⟨none, []⟩

/-- Whether a `TubeBox` operation is an `insert_tube` call. -/
def TBOp.isInsert {L C : Type} : TBOp L C → Bool
  | .insert _ _ => true
  | .register _ => false

/-- The listener registered by an operation, if it is a registration. -/
def TBOp.listenerOf {L C : Type} : TBOp L C → Option L
  | .register l => some l
  | .insert _ _ => none

/-- Embedding of the `TimeHandler` offset-estimator state from
`src/dobject.py`: `offset`, the `_know_offset` flag, and the handler's own
unique bus name (`tube.get_unique_name()`). -/
structure TimeHandler where
  offset : ℚ
  knowOffset : Bool
  myName : String
deriving DecidableEq, Repr

/-- Embedding of `TimeHandler._handle_incoming_time(ask, start, finish,
receive)`: if the offset is not yet known, learn
`offset = (start + finish)/2 - (ask + receive)/2` and mark it known;
otherwise do nothing. -/
def TimeHandler.handleIncomingTime (th : TimeHandler) (ask start finish receive : ℚ) :
    TimeHandler :=
  if ¬ th.knowOffset then
    { th with offset := (start + finish) / 2 - (ask + receive) / 2, knowOffset := true }
  else th

/-- Process a list of `receive_time` replies in delivery order; each reply is
a quadruple `(asktime, start_time, finish_time, rtime)`. -/
def TimeHandler.handleReplies (th : TimeHandler) (replies : List (ℚ × ℚ × ℚ × ℚ)) :
    TimeHandler :=
  replies.foldl (fun t r => t.handleIncomingTime r.1 r.2.1 r.2.2.1 r.2.2.2) th

/-- Embedding of `TimeHandler.tell_time(asktime, sender)`: the reply sent, if
any.  `startLocal` and `finishLocal` are the two `time.time()` readings taken
during the call.  A reply `(asktime, start_time, finish_time)` is sent only
when the sender is not the handler itself and the offset is known. -/
def TimeHandler.tellTime (th : TimeHandler) (asktime : ℚ) (sender : String)
    (startLocal finishLocal : ℚ) : Option (ℚ × ℚ × ℚ) :=
  if sender = th.myName then none
  else if th.knowOffset then
    some (asktime, startLocal + th.offset, finishLocal + th.offset)
  else none

/-- Embedding of `UnorderedHandler` from `src/dobject.py`, restricted to what
its receivers consult: the handler's own unique bus name and the wrapped
object (`None` before `register` is called).  The wrapped object is
abstracted by an identifier whose `get_history()` snapshot is the identifier
itself. -/
structure UnorderedHandler where
  myName : String
  object : Option ℕ
deriving DecidableEq, Repr

/-- Embedding of `UnorderedHandler.receive_message(message, sender)`: the
message dispatched to the wrapped object's `receive_message`, if any.  The
source logs an error and drops the message when no object is registered, and
otherwise dispatches it — it performs no comparison of `sender` against the
handler's own name. -/
def UnorderedHandler.receiveMessage (h : UnorderedHandler) (message : ℕ) (_sender : String) :
    Option ℕ :=
  match h.object with
  | none => none
  | some _ => some message

/-- Embedding of `UnorderedHandler.tell_history(sender)`: the history
snapshot pushed to `sender` via `receive_history`, if any.  The call returns
without replying when `sender` equals the handler's own unique name, or when
no object is registered. -/
def UnorderedHandler.tellHistory (h : UnorderedHandler) (sender : String) : Option ℕ :=
  if sender = h.myName then none
  else
    match h.object with
    | none => none
    | some obj => some obj

/-- Embedding of the `HighScore` register state from `src/dobject.py`:
`_value`, `_score`, `_tiebreaker` and the `_break_ties` flag.  Scores and
tiebreakers are embedded as rationals; `_tiebreaker` is only consulted when
`breakTies` is set (the source stores `None` otherwise). -/
structure HighScore (α : Type) where
  value : α
  score : ℚ
  tiebreaker : ℚ
  breakTies : Bool
deriving DecidableEq, Repr

/-- Embedding of `HighScore._actually_set_value(value, score, tiebreaker)`.
When `break_ties` is set and the caller passed no tiebreaker the source draws
`random.random()`; that draw is resolved by the caller of this function, so
`tb` is always the tiebreaker actually compared.  Returns the new state and
whether the suggestion won. -/
def HighScore.actuallySetValue {α : Type} (h : HighScore α) (v : α) (s tb : ℚ) :
    HighScore α × Bool :=
  if h.breakTies then
    if h.score < s ∨ (h.score = s ∧ h.tiebreaker < tb) then
      ({ h with value := v, score := s, tiebreaker := tb }, true)
    else (h, false)
  else
    if h.score < s then ({ h with value := v, score := s }, true)
    else (h, false)

/-- Embedding of `HighScore.get_pair()`. -/
def HighScore.getPair {α : Type} (h : HighScore α) : α × ℚ := (h.value, h.score)

/-- Embedding of `HighScore.get_history()` (translators elided): the full
triple when ties are broken, else the pair. -/
def HighScore.getHistory {α : Type} (h : HighScore α) : α × ℚ × Option ℚ :=
  if h.breakTies then (h.value, h.score, some h.tiebreaker) else (h.value, h.score, none)

/-- Embedding of `HighScore.set_value(val, score)` (a local suggestion):
returns the new state, the broadcast sent through `handler.send` when the
suggestion wins (`None` otherwise), and the list of pairs passed to the
registered listeners — the source never calls `_trigger` here, which is the
point of claim C10. -/
def HighScore.setValue {α : Type} (h : HighScore α) (v : α) (s tb : ℚ) :
    HighScore α × Option (α × ℚ × Option ℚ) × List (α × ℚ) :=
  let r := h.actuallySetValue v s tb
  if r.2 then (r.1, some r.1.getHistory, []) else (r.1, none, [])

/-- Embedding of `HighScore._set_value_from_net` (reached from both
`receive_message` and `add_history`): returns the new state and the pair
passed to every registered listener when the inbound observation wins. -/
def HighScore.setValueFromNet {α : Type} (h : HighScore α) (v : α) (s tb : ℚ) :
    HighScore α × List (α × ℚ) :=
  let r := h.actuallySetValue v s tb
  if r.2 then (r.1, [r.1.getPair]) else (r.1, [])

/-- An observed suggestion for a `HighScore`: a value, a score, and the
tiebreaker that accompanied it (drawn locally or carried by the message). -/
structure Obs (α : Type) where
  value : α
  score : ℚ
  tb : ℚ
deriving DecidableEq, Repr

/-- State effect of absorbing one observation, local or inbound: both
`set_value` and `_set_value_from_net` mutate state through
`_actually_set_value` with the same comparison. -/
def HighScore.applyObs {α : Type} (h : HighScore α) (o : Obs α) : HighScore α :=
  (h.actuallySetValue o.value o.score o.tb).1

/-- Fold absorbing a list of observations in delivery order. -/
def HighScore.applyAll {α : Type} (h : HighScore α) (l : List (Obs α)) : HighScore α :=
  l.foldl HighScore.applyObs h

/-- The comparison key `HighScore._actually_set_value` effectively orders
states and observations by: `(score, tiebreaker)` lexicographically when ties
are broken, `score` alone otherwise (encoded with second component `0`). -/
def obsKey {α : Type} (bt : Bool) (o : Obs α) : ℚ ×ₗ ℚ :=
  toLex (o.score, if bt then o.tb else 0)

/-- The key of the register's current state. -/
def HighScore.stateKey {α : Type} (h : HighScore α) : ℚ ×ₗ ℚ :=
  toLex (h.score, if h.breakTies then h.tiebreaker else 0)

/-- The state a `HighScore` reaches when observation `o` wins: value and
score are replaced; the tiebreaker is replaced only when ties are broken
(`_actually_set_value` does not assign `_tiebreaker` in its no-ties branch);
the `break_ties` flag never changes. -/
def winState {α : Type} (h : HighScore α) (o : Obs α) : HighScore α :=
  { value := o.value, score := o.score
    tiebreaker := if h.breakTies then o.tb else h.tiebreaker
    breakTies := h.breakTies }

/-- An operation on a `HighScore` replica: a local `set_value` suggestion or
an inbound `receive_message`/`add_history` delivery. -/
inductive HSOp (α : Type) where
  | localSet (v : α) (s tb : ℚ)
  | netReceive (v : α) (s tb : ℚ)
deriving DecidableEq, Repr

/-- Whether an operation is a local `set_value` call. -/
def HSOp.isLocal {α : Type} : HSOp α → Bool
  | .localSet _ _ _ => true
  | .netReceive _ _ _ => false

/-- Execute one operation, returning the new state and the pairs delivered to
registered listeners. -/
def HighScore.runOp {α : Type} (h : HighScore α) : HSOp α → HighScore α × List (α × ℚ)
  | .localSet v s tb => let r := h.setValue v s tb; (r.1, r.2.2)
  | .netReceive v s tb => h.setValueFromNet v s tb

/-- Execute a finite interleaving of local calls and inbound deliveries,
accumulating every listener invocation. -/
def HighScore.run {α : Type} (h : HighScore α) :
    List (HSOp α) → HighScore α × List (α × ℚ)
  | [] => (h, [])
  | op :: ops =>
    let r := h.runOp op
    let r' := r.1.run ops
    (r'.1, r.2 ++ r'.2)

/-- Embedding of the `AddOnlySet` state from `src/dobject.py`: the underlying
Python `set` becomes a `Finset`. -/
structure AddOnlySet (β : Type) [DecidableEq β] where
  items : Finset β

/-- Embedding of `AddOnlySet.update(y)`: compute the difference
`d = set(y) - self._set`; if non-empty, insert it and broadcast exactly `d`
through `_send` (returned as `some d`), otherwise change nothing and
broadcast nothing. -/
def AddOnlySet.update {β : Type} [DecidableEq β] (s : AddOnlySet β) (y : List β) :
    AddOnlySet β × Option (Finset β) :=
  let d := y.toFinset \ s.items
  if d ≠ ∅ then ({ items := s.items ∪ d }, some d) else (s, none)

/-- Embedding of `AddOnlySet.add(y)`: if `y` is absent, insert it and
broadcast the one-element collection `(y,)`. -/
def AddOnlySet.add {β : Type} [DecidableEq β] (s : AddOnlySet β) (x : β) :
    AddOnlySet β × Option (Finset β) :=
  if x ∉ s.items then ({ items := insert x s.items }, some {x}) else (s, none)

/-- Embedding of `AddOnlySet._net_update(y)` (reached from both
`receive_message` and `add_history`): identical diff computation; the
returned difference is what `_trigger` hands to the listeners. -/
def AddOnlySet.netUpdate {β : Type} [DecidableEq β] (s : AddOnlySet β) (y : List β) :
    AddOnlySet β × Option (Finset β) :=
  let d := y.toFinset \ s.items
  if d ≠ ∅ then ({ items := s.items ∪ d }, some d) else (s, none)

/-- An operation on an `AddOnlySet` replica. -/
inductive AOSOp (β : Type) where
  | update (y : List β)
  | add (x : β)
  | receive (y : List β)
deriving DecidableEq, Repr

/-- The elements an operation carries. -/
def AOSOp.elems {β : Type} : AOSOp β → List β
  | .update y => y
  | .add x => [x]
  | .receive y => y

/-- Execute one operation on the set. -/
def AddOnlySet.runOp {β : Type} [DecidableEq β] (s : AddOnlySet β) :
    AOSOp β → AddOnlySet β
  | .update y => (s.update y).1
  | .add x => (s.add x).1
  | .receive y => (s.netUpdate y).1

/-- Execute a finite sequence of local updates, adds and inbound receives. -/
def AddOnlySet.runAll {β : Type} [DecidableEq β] (s : AddOnlySet β) (ops : List (AOSOp β)) :
    AddOnlySet β :=
  ops.foldl AddOnlySet.runOp s

end DObject

namespace Stopwatch

theorem evLe_trans {a b c : WatchEvent} (h : evLe a b) (h' : evLe b c) : evLe a c :=
  le_trans h h'

theorem list_set_getD_self {α : Type} (d : α) :
    ∀ (L : List α) (i : ℕ), L.set i (L.getD i d) = L
  | [], _ => rfl
  | _ :: _, 0 => rfl
  | x :: xs, i + 1 => by
    simpa using congrArg (x :: ·) (list_set_getD_self d xs i)

theorem list_getD_set_self {α : Type} (a d : α) :
    ∀ (L : List α) (i : ℕ), i < L.length → (L.set i a).getD i d = a
  | _ :: _, 0, _ => rfl
  | x :: xs, i + 1, h =>
    list_getD_set_self a d xs i (Nat.succ_lt_succ_iff.mp (by simpa using h))

theorem list_getD_set_ne {α : Type} (a d : α) :
    ∀ (L : List α) (i j : ℕ), i ≠ j → (L.set i a).getD j d = L.getD j d
  | [], _, _, _ => rfl
  | _ :: _, 0, 0, h => absurd rfl h
  | _ :: _, 0, _ + 1, _ => rfl
  | _ :: _, _ + 1, 0, _ => rfl
  | _ :: xs, i + 1, j + 1, h =>
    list_getD_set_ne a d xs i j (fun e => h (by rw [e]))

theorem list_mem_flatten_set {α : Type} (a : List α) (x : α) :
    ∀ (L : List (List α)) (i : ℕ), i < L.length → (∀ y ∈ L.getD i [], y ∈ a) →
      (x ∈ (L.set i a).flatten ↔ x ∈ a ∨ x ∈ L.flatten)
  | b :: L', 0, _, hsub => by
    simp only [List.set, List.flatten_cons, List.mem_append]
    constructor
    · rintro (h | h)
      · exact Or.inl h
      · exact Or.inr (Or.inr h)
    · rintro (h | h | h)
      · exact Or.inl h
      · exact Or.inl (hsub x h)
      · exact Or.inr h
  | b :: L', i + 1, hlen, hsub => by
    have ih := list_mem_flatten_set a x L' i
      (Nat.succ_lt_succ_iff.mp (by simpa using hlen)) (by simpa using hsub)
    simp only [List.set, List.flatten_cons, List.mem_append, ih]
    tauto

theorem insort_perm (e : WatchEvent) :
    ∀ l : List WatchEvent, List.Perm (insort e l) (e :: l)
  | [] => List.Perm.refl _
  | x :: xs => by
    unfold insort
    by_cases h : evLt e x
    · simp [h]
    · simp only [h, if_false]
      exact ((insort_perm e xs).cons x).trans (List.Perm.swap e x xs)

theorem mem_insort {x e : WatchEvent} {l : List WatchEvent} :
    x ∈ insort e l ↔ x = e ∨ x ∈ l := by
  rw [(insort_perm e l).mem_iff, List.mem_cons]

theorem insort_sorted (e : WatchEvent) :
    ∀ {l : List WatchEvent}, l.Sorted evLe → (insort e l).Sorted evLe
  | [], _ => List.sorted_singleton e
  | x :: xs, h => by
    unfold insort
    by_cases hlt : evLt e x
    · simp only [hlt, if_true]
      refine List.sorted_cons.mpr ⟨?_, h⟩
      intro b hb
      rcases List.mem_cons.mp hb with rfl | hb
      · exact evLe_of_lt hlt
      · exact evLe_trans (evLe_of_lt hlt) (List.rel_of_sorted_cons h b hb)
    · simp only [hlt, if_false]
      have h1 := List.sorted_cons.mp h
      refine List.sorted_cons.mpr ⟨?_, insort_sorted e h1.2⟩
      intro b hb
      rcases mem_insort.mp hb with rfl | hb
      · exact evLe_of_not_lt hlt
      · exact h1.1 b hb

theorem insortAll_nil (hist : List WatchEvent) : insortAll [] hist = hist := rfl

theorem insortAll_cons (e : WatchEvent) (rest hist : List WatchEvent) :
    insortAll (e :: rest) hist = insortAll rest (insort e hist) := rfl

theorem insortAll_perm :
    ∀ (l hist : List WatchEvent), List.Perm (insortAll l hist) (l ++ hist)
  | [], hist => by simp [insortAll]
  | e :: rest, hist => by
    rw [insortAll_cons]
    refine (insortAll_perm rest (insort e hist)).trans ?_
    refine (List.Perm.append_left rest (insort_perm e hist)).trans ?_
    exact List.perm_middle

theorem insortAll_sorted :
    ∀ (l : List WatchEvent) {hist : List WatchEvent},
      hist.Sorted evLe → (insortAll l hist).Sorted evLe
  | [], _, h => h
  | e :: rest, _, h => insortAll_sorted rest (insort_sorted e h)

theorem insortAll_eq_of_perm {l l' hist : List WatchEvent} (hp : List.Perm l l')
    (hs : hist.Sorted evLe) : insortAll l hist = insortAll l' hist :=
  List.eq_of_perm_of_sorted
    ((insortAll_perm l hist).trans ((hp.append_right hist).trans (insortAll_perm l' hist).symm))
    (insortAll_sorted l hs) (insortAll_sorted l' hs)

theorem addEvents_changed_true :
    ∀ (l known hist : List WatchEvent), (addEvents l known hist true).2.2 = true
  | [], _, _ => rfl
  | ev :: rest, known, hist => by
    unfold addEvents
    by_cases h : ev ∈ known <;> simp [h, addEvents_changed_true]

theorem addEvents_spec :
    ∀ (l known hist : List WatchEvent) (c : Bool), l.Nodup → (∀ e ∈ l, e ∉ known) →
      addEvents l known hist c = (l.reverse ++ known, insortAll l hist, c || !l.isEmpty)
  | [], known, hist, c, _, _ => by simp [addEvents, insortAll]
  | ev :: rest, known, hist, c, hnd, hdisj => by
    have hk : ev ∉ known := hdisj ev (List.mem_cons_self ev rest)
    have hnd' := List.nodup_cons.mp hnd
    unfold addEvents
    rw [if_neg hk,
      addEvents_spec rest (ev :: known) (insort ev hist) true hnd'.2 ?_]
    · simp [insortAll_cons]
    · intro e he
      rw [List.mem_cons]
      rintro (rfl | hmem)
      · exact hnd'.1 he
      · exact hdisj e (List.mem_cons_of_mem ev he) hmem

theorem addEvents_allKnown :
    ∀ (l known hist : List WatchEvent) (c : Bool), (∀ e ∈ l, e ∈ known) →
      addEvents l known hist c = (known, hist, c)
  | [], _, _, _, _ => rfl
  | ev :: rest, known, hist, c, h => by
    unfold addEvents
    rw [if_pos (h ev (List.mem_cons_self ev rest))]
    exact addEvents_allKnown rest known hist c fun e he => h e (List.mem_cons_of_mem ev he)

theorem addEvents_mem_known (x : WatchEvent) :
    ∀ (l known hist : List WatchEvent) (c : Bool),
      (x ∈ (addEvents l known hist c).1 ↔ x ∈ known ∨ x ∈ l)
  | [], known, hist, c => by simp [addEvents]
  | ev :: rest, known, hist, c => by
    unfold addEvents
    by_cases h : ev ∈ known
    · rw [if_pos h, addEvents_mem_known x rest known hist c]
      simp only [List.mem_cons]
      constructor
      · rintro (hx | hx)
        · exact Or.inl hx
        · exact Or.inr (Or.inr hx)
      · rintro (hx | rfl | hx)
        · exact Or.inl hx
        · exact Or.inl h
        · exact Or.inr hx
    · rw [if_neg h, addEvents_mem_known x rest (ev :: known) (insort ev hist) true]
      simp only [List.mem_cons]
      tauto

theorem addEvents_mem_hist (x : WatchEvent) :
    ∀ (l known hist : List WatchEvent) (c : Bool),
      (x ∈ (addEvents l known hist c).2.1 ↔ x ∈ hist ∨ (x ∈ l ∧ x ∉ known))
  | [], known, hist, c => by simp [addEvents]
  | ev :: rest, known, hist, c => by
    unfold addEvents
    by_cases h : ev ∈ known
    · rw [if_pos h, addEvents_mem_hist x rest known hist c]
      simp only [List.mem_cons]
      constructor
      · rintro (hx | ⟨hx, hk⟩)
        · exact Or.inl hx
        · exact Or.inr ⟨Or.inr hx, hk⟩
      · rintro (hx | ⟨rfl | hx, hk⟩)
        · exact Or.inl hx
        · exact absurd h hk
        · exact Or.inr ⟨hx, hk⟩
    · rw [if_neg h, addEvents_mem_hist x rest (ev :: known) (insort ev hist) true]
      simp only [List.mem_cons, mem_insort]
      by_cases hxe : x = ev
      · subst hxe
        simp [h]
      · simp [hxe]

theorem addEvents_of_changed_false :
    ∀ (l known hist : List WatchEvent), (addEvents l known hist false).2.2 = false →
      addEvents l known hist false = (known, hist, false)
  | [], _, _, _ => rfl
  | ev :: rest, known, hist, h => by
    unfold addEvents at h ⊢
    by_cases hk : ev ∈ known
    · rw [if_pos hk] at h ⊢
      exact addEvents_of_changed_false rest known hist h
    · rw [if_neg hk, addEvents_changed_true] at h
      cases h

theorem addEvents_sorted :
    ∀ (l known hist : List WatchEvent) (c : Bool), hist.Sorted evLe →
      ((addEvents l known hist c).2.1).Sorted evLe
  | [], _, _, _, h => h
  | ev :: rest, known, hist, c, h => by
    unfold addEvents
    by_cases hk : ev ∈ known
    · rw [if_pos hk]
      exact addEvents_sorted rest known hist c h
    · rw [if_neg hk]
      exact addEvents_sorted rest _ _ true (insort_sorted ev h)

theorem addHistoryStep_knownEvents (m : Model) (i : ℕ) (w : List WatchEvent) :
    (addHistoryStep m i w).knownEvents =
      (addEvents w m.knownEvents (m.history.getD i []) false).1 := by
  simp only [addHistoryStep]
  split <;> rfl

theorem addHistoryStep_history (m : Model) (i : ℕ) (w : List WatchEvent) :
    (addHistoryStep m i w).history =
      m.history.set i (addEvents w m.knownEvents (m.history.getD i []) false).2.1 := by
  simp only [addHistoryStep]
  split <;> rfl

theorem addHistoryStep_initState (m : Model) (i : ℕ) (w : List WatchEvent) :
    (addHistoryStep m i w).initState = m.initState := by
  simp only [addHistoryStep]
  split <;> rfl

theorem addHistoryStep_state (m : Model) (i : ℕ) (w : List WatchEvent) :
    (addHistoryStep m i w).state =
      if (addEvents w m.knownEvents (m.history.getD i []) false).2.2 then
        m.state.set i (updateState (m.initState.getD i (STATE_PAUSED, 0))
          (addEvents w m.knownEvents (m.history.getD i []) false).2.1)
      else m.state := by
  simp only [addHistoryStep]
  split <;> rfl

theorem addHistoryStep_changed_false {m : Model} {i : ℕ} {w : List WatchEvent}
    (h : (addEvents w m.knownEvents (m.history.getD i []) false).2.2 = false) :
    addHistoryStep m i w = m := by
  have h' := addEvents_of_changed_false w m.knownEvents (m.history.getD i []) h
  simp only [addHistoryStep, h']
  rw [list_set_getD_self]
  simp

theorem addHistoryStep_nil (m : Model) (i : ℕ) : addHistoryStep m i [] = m :=
  addHistoryStep_changed_false rfl

theorem addHistoryStep_allKnown {m : Model} {i : ℕ} {w : List WatchEvent}
    (h : ∀ e ∈ w, e ∈ m.knownEvents) : addHistoryStep m i w = m := by
  apply addHistoryStep_changed_false
  rw [addEvents_allKnown w _ _ false h]

theorem foldl_addHistoryStep_allKnown (h : List (List WatchEvent)) :
    ∀ (L : List ℕ) (m : Model), (∀ i ∈ L, ∀ e ∈ h.getD i [], e ∈ m.knownEvents) →
      L.foldl (fun m i => addHistoryStep m i (h.getD i [])) m = m
  | [], _, _ => rfl
  | i :: L, m, hyp => by
    have hstep : addHistoryStep m i (h.getD i []) = m :=
      addHistoryStep_allKnown (hyp i (List.mem_cons_self i L))
    simp only [List.foldl_cons, hstep]
    exact foldl_addHistoryStep_allKnown h L m fun j hj => hyp j (List.mem_cons_of_mem i hj)

theorem addHistory_allKnown {m : Model} {h : List (List WatchEvent)}
    (hyp : ∀ i < NUM_WATCHES, ∀ e ∈ h.getD i [], e ∈ m.knownEvents) :
    addHistory h m = m :=
  foldl_addHistoryStep_allKnown h (List.range NUM_WATCHES) m
    fun i hi => hyp i (List.mem_range.mp hi)

theorem addHistoryStep_known_mem {m : Model} {i : ℕ} {w : List WatchEvent} {x : WatchEvent} :
    x ∈ (addHistoryStep m i w).knownEvents ↔ x ∈ m.knownEvents ∨ x ∈ w := by
  rw [addHistoryStep_knownEvents, addEvents_mem_known]

theorem foldl_addHistoryStep_known_mem (h : List (List WatchEvent)) :
    ∀ (L : List ℕ) (m : Model) (x : WatchEvent),
      (x ∈ m.knownEvents ∨ ∃ i ∈ L, x ∈ h.getD i []) →
      x ∈ ((L.foldl (fun m i => addHistoryStep m i (h.getD i [])) m).knownEvents)
  | [], m, x, hx => by
    rcases hx with hx | ⟨i, hi, _⟩
    · exact hx
    · cases hi
  | i :: L, m, x, hx => by
    simp only [List.foldl_cons]
    apply foldl_addHistoryStep_known_mem h L
    rcases hx with hx | ⟨j, hj, hxj⟩
    · exact Or.inl (addHistoryStep_known_mem.mpr (Or.inl hx))
    · rcases List.mem_cons.mp hj with rfl | hj
      · exact Or.inl (addHistoryStep_known_mem.mpr (Or.inr hxj))
      · exact Or.inr ⟨j, hj, hxj⟩

theorem addHistory_known_mem {m : Model} {h : List (List WatchEvent)} {x : WatchEvent}
    (hx : x ∈ m.knownEvents ∨ ∃ i < NUM_WATCHES, x ∈ h.getD i []) :
    x ∈ (addHistory h m).knownEvents := by
  apply foldl_addHistoryStep_known_mem
  rcases hx with hx | ⟨i, hi, hxi⟩
  · exact Or.inl hx
  · exact Or.inr ⟨i, List.mem_range.mpr hi, hxi⟩

theorem addHistory_idem (m : Model) (h : List (List WatchEvent)) :
    addHistory h (addHistory h m) = addHistory h m :=
  addHistory_allKnown fun i hi _ he => addHistory_known_mem (Or.inr ⟨i, hi, he⟩)

/-- Well-formedness of a `Model`: the three per-watch lists have length
`NUM_WATCHES`, every per-watch history is sorted by the event tuple order,
and every per-watch state equals the deterministic fold of the initial state
over that history (spec section 4.6). -/
def WF (m : Model) : Prop :=
  m.history.length = NUM_WATCHES ∧ m.initState.length = NUM_WATCHES ∧
  m.state.length = NUM_WATCHES ∧
  (∀ i < NUM_WATCHES, (m.history.getD i []).Sorted evLe) ∧
  (∀ i < NUM_WATCHES, m.state.getD i (STATE_PAUSED, 0) =
    updateState (m.initState.getD i (STATE_PAUSED, 0)) (m.history.getD i []))

instance : DecidablePred WF := fun m => by unfold WF; infer_instance

/-- The third `Model` invariant of spec section 3: the `_known_events` set
contains exactly the events stored in the per-watch histories. -/
def KnownInv (m : Model) : Prop := ∀ x, x ∈ m.knownEvents ↔ x ∈ m.histEvents

theorem mem_flatten_of_getD {α : Type} {x : α} :
    ∀ {L : List (List α)} {i : ℕ}, i < L.length → x ∈ L.getD i [] → x ∈ L.flatten
  | b :: _, 0, _, h => List.mem_append.mpr (Or.inl h)
  | _ :: L', i + 1, hlen, h =>
    List.mem_append.mpr (Or.inr
      (mem_flatten_of_getD (L := L') (Nat.succ_lt_succ_iff.mp (by simpa using hlen)) h))

theorem addHistoryStep_WF {m : Model} (hwf : WF m) {i : ℕ} (hi : i < NUM_WATCHES)
    (w : List WatchEvent) : WF (addHistoryStep m i w) := by
  obtain ⟨hlen, hilen, hslen, hsort, hfold⟩ := hwf
  refine ⟨?_, ?_, ?_, ?_, ?_⟩
  · rw [addHistoryStep_history]
    simp [hlen]
  · rw [addHistoryStep_initState]
    exact hilen
  · rw [addHistoryStep_state]
    split <;> simp [hslen]
  · intro j hj
    rw [addHistoryStep_history]
    by_cases hij : i = j
    · subst hij
      rw [list_getD_set_self _ _ _ _ (by rw [hlen]; exact hi)]
      exact addEvents_sorted w _ _ false (hsort i hi)
    · rw [list_getD_set_ne _ _ _ _ _ hij]
      exact hsort j hj
  · intro j hj
    rw [addHistoryStep_state, addHistoryStep_history, addHistoryStep_initState]
    by_cases hij : i = j
    · subst hij
      split
      · rw [list_getD_set_self _ _ _ _ (by rw [hslen]; exact hi),
          list_getD_set_self _ _ _ _ (by rw [hlen]; exact hi)]
      · next hc =>
        have hc' : (addEvents w m.knownEvents (m.history.getD i []) false).2.2 = false := by
          simpa using hc
        have h2 := addEvents_of_changed_false w m.knownEvents (m.history.getD i []) hc'
        rw [h2]
        rw [list_set_getD_self]
        exact hfold i hi
    · split
      · rw [list_getD_set_ne _ _ _ i j hij, list_getD_set_ne _ _ _ i j hij]
        exact hfold j hj
      · rw [list_getD_set_ne _ _ _ i j hij]
        exact hfold j hj

theorem addHistoryStep_KnownInv {m : Model} (hlen : m.history.length = NUM_WATCHES)
    {i : ℕ} (hi : i < NUM_WATCHES) (w : List WatchEvent) (hinv : KnownInv m) :
    KnownInv (addHistoryStep m i w) := by
  intro x
  have hx := hinv x
  unfold Model.histEvents at hx ⊢
  rw [addHistoryStep_known_mem, addHistoryStep_history,
    list_mem_flatten_set _ x m.history i (hlen ▸ hi)
      (fun y hy => (addEvents_mem_hist y w m.knownEvents (m.history.getD i []) false).mpr
        (Or.inl hy)),
    addEvents_mem_hist]
  constructor
  · rintro (hk | hw)
    · exact Or.inr (hx.mp hk)
    · by_cases hxk : x ∈ m.knownEvents
      · exact Or.inr (hx.mp hxk)
      · exact Or.inl (Or.inr ⟨hw, hxk⟩)
  · rintro ((hh | ⟨hw, _⟩) | hf)
    · exact Or.inl (hx.mpr (mem_flatten_of_getD (hlen ▸ hi) hh))
    · exact Or.inr hw
    · exact Or.inl (hx.mpr hf)

theorem foldl_addHistoryStep_pres (P : Model → Prop) (h : List (List WatchEvent))
    (hstep : ∀ (m : Model) (i : ℕ), i < NUM_WATCHES → P m →
      P (addHistoryStep m i (h.getD i []))) :
    ∀ (L : List ℕ), (∀ i ∈ L, i < NUM_WATCHES) → ∀ (m : Model), P m →
      P (L.foldl (fun m i => addHistoryStep m i (h.getD i [])) m)
  | [], _, _, hm => hm
  | i :: L, hL, m, hm => by
    simp only [List.foldl_cons]
    exact foldl_addHistoryStep_pres P h hstep L
      (fun j hj => hL j (List.mem_cons_of_mem i hj)) _
      (hstep m i (hL i (List.mem_cons_self i L)) hm)

theorem addHistory_WF {m : Model} (hwf : WF m) (h : List (List WatchEvent)) :
    WF (addHistory h m) :=
  foldl_addHistoryStep_pres WF h (fun _ _ hi hm => addHistoryStep_WF hm hi _)
    (List.range NUM_WATCHES) (fun _ hi => List.mem_range.mp hi) m hwf

theorem addHistory_KnownInv {m : Model}
    (hm : m.history.length = NUM_WATCHES ∧ KnownInv m) (h : List (List WatchEvent)) :
    (addHistory h m).history.length = NUM_WATCHES ∧ KnownInv (addHistory h m) :=
  foldl_addHistoryStep_pres (fun m => m.history.length = NUM_WATCHES ∧ KnownInv m) h
    (fun m i hi hm =>
      ⟨by rw [addHistoryStep_history]; simp [hm.1],
        addHistoryStep_KnownInv hm.1 hi _ hm.2⟩)
    (List.range NUM_WATCHES) (fun _ hi => List.mem_range.mp hi) m hm

theorem addHistoryStep_fresh {m : Model} {i : ℕ} {l : List WatchEvent}
    (hnd : l.Nodup) (hdisj : ∀ e ∈ l, e ∉ m.knownEvents) (hne : l ≠ []) :
    addHistoryStep m i l =
      { m with
        knownEvents := l.reverse ++ m.knownEvents
        history := m.history.set i (insortAll l (m.history.getD i []))
        state := m.state.set i (updateState (m.initState.getD i (STATE_PAUSED, 0))
          (insortAll l (m.history.getD i []))) } := by
  have hempty : l.isEmpty = false := by
    cases l with
    | nil => exact absurd rfl hne
    | cons a as => rfl
  have hspec := addEvents_spec l m.knownEvents (m.history.getD i []) false hnd hdisj
  simp at hspec
  simp [addHistoryStep, hspec, hempty]

theorem foldl_addHistoryStep_of_nil (h : List (List WatchEvent)) :
    ∀ (L : List ℕ), (∀ i ∈ L, h.getD i [] = []) → ∀ (m : Model),
      L.foldl (fun m i => addHistoryStep m i (h.getD i [])) m = m
  | [], _, _ => rfl
  | i :: L, hL, m => by
    simp only [List.foldl_cons, hL i (List.mem_cons_self i L), addHistoryStep_nil]
    exact foldl_addHistoryStep_of_nil h L (fun j hj => hL j (List.mem_cons_of_mem i hj)) m

theorem addHistory_single (m : Model) (l : List WatchEvent) :
    addHistory [l] m = addHistoryStep m 0 l := by
  rw [addHistory]
  have hr : List.range NUM_WATCHES = 0 :: [1, 2, 3, 4, 5, 6, 7, 8, 9] := by decide
  rw [hr, List.foldl_cons]
  have h2 : ∀ i ∈ [1, 2, 3, 4, 5, 6, 7, 8, 9],
      ([l] : List (List WatchEvent)).getD i [] = [] := by
    intro i hi
    fin_cases hi <;> rfl
  rw [foldl_addHistoryStep_of_nil [l] _ h2]
  rfl

theorem addHistory_single_perm {m : Model} {l l0 : List WatchEvent}
    (hp : List.Perm l l0) (hnd : l0.Nodup) (hdisj : ∀ e ∈ l0, e ∉ m.knownEvents)
    (hne : l0 ≠ []) (hs : (m.history.getD 0 []).Sorted evLe) :
    addHistory [l] m =
      { m with
        knownEvents := l.reverse ++ m.knownEvents
        history := m.history.set 0 (insortAll l0 (m.history.getD 0 []))
        state := m.state.set 0 (updateState (m.initState.getD 0 (STATE_PAUSED, 0))
          (insortAll l0 (m.history.getD 0 []))) } := by
  have hnd' : l.Nodup := hp.nodup_iff.mpr hnd
  have hdisj' : ∀ e ∈ l, e ∉ m.knownEvents := fun e he => hdisj e (hp.mem_iff.mp he)
  have hne' : l ≠ [] := by
    intro h
    subst h
    exact hne hp.symm.eq_nil
  rw [addHistory_single, addHistoryStep_fresh hnd' hdisj' hne',
    insortAll_eq_of_perm hp hs]

theorem addHistory_single_perm_state {m : Model} {l l0 : List WatchEvent}
    (hp : List.Perm l l0) (hnd : l0.Nodup) (hdisj : ∀ e ∈ l0, e ∉ m.knownEvents)
    (hne : l0 ≠ []) (hs : (m.history.getD 0 []).Sorted evLe) :
    (addHistory [l] m).state =
      m.state.set 0 (updateState (m.initState.getD 0 (STATE_PAUSED, 0))
        (insortAll l0 (m.history.getD 0 []))) := by
  rw [addHistory_single_perm hp hnd hdisj hne hs]

/-- C1: after any `add_history` delivery the model is well-formed — every
per-watch history is sorted by the event tuple order and every per-watch
state equals the deterministic fold of `init_state` over that history (spec
section 4.6).  In particular, starting from `init_state = (PAUSED, 7)` and
absorbing `(100, RESET)`, `(101, RUN)`, `(110, RESET)`, `(120, PAUSE)`, the
successive recomputed states for watch 0 are `(PAUSED, 0)`, `(RUNNING, 101)`,
`(RUNNING, 110)`, `(PAUSED, 10)`, and delivering the four events in any order
yields the same final state `(PAUSED, 10)`. -/
theorem C1_state_is_fold_of_sorted_history :
    (∀ (m : Model) (h : List (List WatchEvent)), WF m → WF (addHistory h m)) ∧
    (addHistory [[ev 100 RESET_EVENT]] exampleS6).state.getD 0 (STATE_PAUSED, 0) =
      (STATE_PAUSED, 0) ∧
    (addHistory [[ev 101 RUN_EVENT]]
        (addHistory [[ev 100 RESET_EVENT]] exampleS6)).state.getD 0 (STATE_PAUSED, 0) =
      (STATE_RUNNING, 101) ∧
    (addHistory [[ev 110 RESET_EVENT]]
        (addHistory [[ev 101 RUN_EVENT]]
          (addHistory [[ev 100 RESET_EVENT]] exampleS6))).state.getD 0 (STATE_PAUSED, 0) =
      (STATE_RUNNING, 110) ∧
    (addHistory [[ev 120 PAUSE_EVENT]]
        (addHistory [[ev 110 RESET_EVENT]]
          (addHistory [[ev 101 RUN_EVENT]]
            (addHistory [[ev 100 RESET_EVENT]] exampleS6)))).state.getD 0 (STATE_PAUSED, 0) =
      (STATE_PAUSED, 10) ∧
    (∀ l : List WatchEvent,
      List.Perm l
        [ev 100 RESET_EVENT, ev 101 RUN_EVENT, ev 110 RESET_EVENT, ev 120 PAUSE_EVENT] →
      (addHistory [l] exampleS6).state.getD 0 (STATE_PAUSED, 0) = (STATE_PAUSED, 10)) := by
  refine ⟨fun m h hwf => addHistory_WF hwf h, by decide, by decide, by decide, by decide, ?_⟩
  intro l hp
  rw [addHistory_single_perm_state hp (by decide) (by decide) (by decide) (by decide)]
  decide

/-- Witness for C1: the well-formedness preservation instantiated on the
freshly constructed model with one concrete delivery, and the any-order
conclusion instantiated on the identity permutation. -/
theorem C1_state_is_fold_of_sorted_history_witness :
    WF (addHistory [[ev 100 RESET_EVENT]] Model.init) ∧
    (addHistory
        [[ev 100 RESET_EVENT, ev 101 RUN_EVENT, ev 110 RESET_EVENT, ev 120 PAUSE_EVENT]]
        exampleS6).state.getD 0 (STATE_PAUSED, 0) = (STATE_PAUSED, 10) :=
  ⟨C1_state_is_fold_of_sorted_history.1 Model.init [[ev 100 RESET_EVENT]] (by decide),
    C1_state_is_fold_of_sorted_history.2.2.2.2.2
      [ev 100 RESET_EVENT, ev 101 RUN_EVENT, ev 110 RESET_EVENT, ev 120 PAUSE_EVENT]
      (List.Perm.refl _)⟩

/-- C2 counterexample: with `init_state = (PAUSED, 0)`, after absorbing
`(10, RUN)`, `(15, PAUSE)`, `(20, RUN)`, `(25, RESET)` and then `(22, PAUSE)`,
the recomputed state of watch 0 is `(PAUSED, 0)` — not `(RUNNING, 8)` as the
claim asserts: in the sorted history the `25.0 RESET` follows the `22.0
PAUSE`, so it fires while PAUSED and clears the elapsed time to `0`. -/
theorem C2_counterexample :
    (addHistory [[ev 22 PAUSE_EVENT]]
        (addHistory
          [[ev 10 RUN_EVENT, ev 15 PAUSE_EVENT, ev 20 RUN_EVENT, ev 25 RESET_EVENT]]
          Model.init)).state.getD 0 (STATE_PAUSED, 0) = (STATE_PAUSED, 0) ∧
    ((STATE_PAUSED, (0 : ℚ)) : ℕ × ℚ) ≠ (STATE_RUNNING, (8 : ℚ)) := by
  constructor
  · decide
  · decide

/-- C2 as amended: after the five events are delivered in any order, the
folded state of watch 0 recomputes deterministically to `(PAUSED, 0)` (the
`25.0 RESET` lands while PAUSED and clears the elapsed time), not to
`(RUNNING, 8.0)`. -/
theorem C2_reordered_pause_folds_deterministically :
    ∀ l : List WatchEvent,
      List.Perm l
        [ev 10 RUN_EVENT, ev 15 PAUSE_EVENT, ev 20 RUN_EVENT, ev 25 RESET_EVENT,
          ev 22 PAUSE_EVENT] →
      (addHistory [l] Model.init).state.getD 0 (STATE_PAUSED, 0) = (STATE_PAUSED, 0) := by
  intro l hp
  rw [addHistory_single_perm_state hp (by decide) (by decide) (by decide) (by decide)]
  decide

/-- Witness for C2: the amended theorem applied to one concrete delivery
order (the reordered one, with the late `(22, PAUSE)` in the middle). -/
theorem C2_reordered_pause_folds_deterministically_witness :
    (addHistory
        [[ev 22 PAUSE_EVENT, ev 10 RUN_EVENT, ev 25 RESET_EVENT, ev 15 PAUSE_EVENT,
          ev 20 RUN_EVENT]]
        Model.init).state.getD 0 (STATE_PAUSED, 0) = (STATE_PAUSED, 0) :=
  C2_reordered_pause_folds_deterministically
    [ev 22 PAUSE_EVENT, ev 10 RUN_EVENT, ev 25 RESET_EVENT, ev 15 PAUSE_EVENT,
      ev 20 RUN_EVENT] (by decide)

/-- C4 counterexample: deliver one event (so that `known_events` is
non-empty) and then `reset`.  The source's `Model.reset` clears `_history`
but leaves `_known_events` untouched, so the invariant
`known_events = set(history)` does not hold after the reset. -/
theorem C4_counterexample :
    ¬ KnownInv ((addHistory [[ev 100 RESET_EVENT]] Model.init).reset
        (List.replicate NUM_WATCHES (STATE_PAUSED, 0))) := by
  intro h
  have h1 : ev 100 RESET_EVENT ∈
      ((addHistory [[ev 100 RESET_EVENT]] Model.init).reset
        (List.replicate NUM_WATCHES (STATE_PAUSED, 0))).knownEvents := by decide
  have h2 : ev 100 RESET_EVENT ∉
      ((addHistory [[ev 100 RESET_EVENT]] Model.init).reset
        (List.replicate NUM_WATCHES (STATE_PAUSED, 0))).histEvents := by decide
  exact h2 ((h _).mp h1)

/-- C4 as amended: construction and `add_history` preserve the invariant
`known_events = set(history)`, but `reset` does not re-establish it — it
clears the histories while leaving `known_events` unchanged, so after a
`reset` the equality holds only when `known_events` was already empty. -/
theorem C4_known_events_invariant :
    KnownInv Model.init ∧
    (∀ (m : Model) (h : List (List WatchEvent)),
      m.history.length = NUM_WATCHES → KnownInv m → KnownInv (addHistory h m)) ∧
    (∀ (m : Model) (init : List (ℕ × ℚ)),
      (m.reset init).knownEvents = m.knownEvents ∧ (m.reset init).histEvents = []) ∧
    (∀ (m : Model) (init : List (ℕ × ℚ)),
      m.knownEvents = [] → KnownInv (m.reset init)) := by
  refine ⟨?_, ?_, ?_, ?_⟩
  · intro x
    rw [show Model.init.knownEvents = [] from rfl,
      show Model.init.histEvents = [] from rfl]
  · intro m h hlen hinv
    exact (addHistory_KnownInv ⟨hlen, hinv⟩ h).2
  · intro m init
    exact ⟨rfl, rfl⟩
  · intro m init hk
    intro x
    rw [show (m.reset init).knownEvents = m.knownEvents from rfl, hk,
      show (m.reset init).histEvents = [] from rfl]

/-- Witness for C4: the preservation and reset conjuncts instantiated on a
fresh model and one concrete delivery. -/
theorem C4_known_events_invariant_witness :
    KnownInv (addHistory [[ev 100 RESET_EVENT]] Model.init) ∧
    KnownInv (Model.init.reset (List.replicate NUM_WATCHES (STATE_PAUSED, 0))) :=
  ⟨C4_known_events_invariant.2.1 Model.init [[ev 100 RESET_EVENT]] (by decide)
      C4_known_events_invariant.1,
    C4_known_events_invariant.2.2.2 Model.init
      (List.replicate NUM_WATCHES (STATE_PAUSED, 0)) rfl⟩

/-- C5: delivering only events that are already members of `known_events`
leaves the model exactly as it was — history, known events and folded state
unchanged — and consequently delivering the same history twice equals
delivering it once. -/
theorem C5_duplicate_delivery_noop :
    (∀ (m : Model) (h : List (List WatchEvent)),
      (∀ i < NUM_WATCHES, ∀ e ∈ h.getD i [], e ∈ m.knownEvents) →
      addHistory h m = m) ∧
    (∀ (m : Model) (h : List (List WatchEvent)),
      addHistory h (addHistory h m) = addHistory h m) :=
  ⟨fun _ _ hyp => addHistory_allKnown hyp, fun m h => addHistory_idem m h⟩

/-- Witness for C5: re-delivering a concrete event to a model that already
knows it is the identity. -/
theorem C5_duplicate_delivery_noop_witness :
    addHistory [[ev 5 RUN_EVENT]] (addHistory [[ev 5 RUN_EVENT]] Model.init) =
      addHistory [[ev 5 RUN_EVENT]] Model.init ∧
    addHistory [[ev 5 RUN_EVENT]] (addHistory [[ev 5 RUN_EVENT]] Model.init) =
      addHistory [[ev 5 RUN_EVENT]] Model.init :=
  ⟨C5_duplicate_delivery_noop.2 Model.init [[ev 5 RUN_EVENT]],
    C5_duplicate_delivery_noop.1 (addHistory [[ev 5 RUN_EVENT]] Model.init)
      [[ev 5 RUN_EVENT]] (by decide)⟩

end Stopwatch

namespace DObject

/-- C6 counterexample: a registered `UnorderedHandler` dispatches a `send`
broadcast to its wrapped object even when the sender is the handler's own
unique name — `receive_message` performs no self-echo check. -/
theorem C6_counterexample :
    UnorderedHandler.receiveMessage ⟨"peer", some 7⟩ 42 "peer" = some 42 ∧
    (some 42 : Option ℕ) ≠ none := by
  constructor
  · rfl
  · decide

/-- C6 as amended: `tell_history` and `tell_time` drop requests whose sender
equals the local `unique_name()`, but the `send`-signal receiver
`receive_message` performs no sender comparison: whenever an object is
registered it dispatches every message — including the replica's own
broadcasts — to the wrapped object, and drops messages only when no object
is registered. -/
theorem C6_self_echo_drop :
    (∀ h : UnorderedHandler, h.tellHistory h.myName = none) ∧
    (∀ (th : TimeHandler) (asktime startLocal finishLocal : ℚ),
      th.tellTime asktime th.myName startLocal finishLocal = none) ∧
    (∀ (h : UnorderedHandler) (msg obj : ℕ) (sender : String),
      h.object = some obj → h.receiveMessage msg sender = some msg) ∧
    (∀ (h : UnorderedHandler) (msg : ℕ) (sender : String),
      h.object = none → h.receiveMessage msg sender = none) := by
  refine ⟨?_, ?_, ?_, ?_⟩
  · intro h
    simp [UnorderedHandler.tellHistory]
  · intro th a s f
    simp [TimeHandler.tellTime]
  · intro h msg obj sender hobj
    simp [UnorderedHandler.receiveMessage, hobj]
  · intro h msg sender hobj
    simp [UnorderedHandler.receiveMessage, hobj]

/-- Witness for C6: the amended behavior at concrete handlers. -/
theorem C6_self_echo_drop_witness :
    UnorderedHandler.tellHistory ⟨"me", some 3⟩ "me" = none ∧
    TimeHandler.tellTime ⟨0, true, "me"⟩ 1 "me" 2 3 = none ∧
    UnorderedHandler.receiveMessage ⟨"me", some 3⟩ 9 "other" = some 9 ∧
    UnorderedHandler.receiveMessage ⟨"me", none⟩ 9 "other" = none :=
  ⟨C6_self_echo_drop.1 ⟨"me", some 3⟩,
    C6_self_echo_drop.2.1 ⟨0, true, "me"⟩ 1 2 3,
    C6_self_echo_drop.2.2.1 ⟨"me", some 3⟩ 9 3 "other" rfl,
    C6_self_echo_drop.2.2.2 ⟨"me", none⟩ 9 "other" rfl⟩

/-- C7: a `receive_time` reply processed while `know_offset` is false sets
`offset = (start_time + finish_time)/2 - (asktime + rtime)/2` and marks the
offset known; once `know_offset` is true a reply changes nothing, so any
further sequence of replies leaves the handler fixed — first response wins
and the estimator never reassigns the offset. -/
theorem C7_first_response_wins :
    (∀ (th : TimeHandler) (ask start finish receive : ℚ),
      th.knowOffset = false →
      th.handleIncomingTime ask start finish receive =
        { th with offset := (start + finish) / 2 - (ask + receive) / 2,
                  knowOffset := true }) ∧
    (∀ (th : TimeHandler) (ask start finish receive : ℚ),
      th.knowOffset = true → th.handleIncomingTime ask start finish receive = th) ∧
    (∀ (th : TimeHandler) (replies : List (ℚ × ℚ × ℚ × ℚ)),
      th.knowOffset = true → th.handleReplies replies = th) := by
  refine ⟨?_, ?_, ?_⟩
  · intro th a s f r h
    simp [TimeHandler.handleIncomingTime, h]
  · intro th a s f r h
    simp [TimeHandler.handleIncomingTime, h]
  · intro th replies h
    induction replies with
    | nil => rfl
    | cons x xs ih =>
      have hstep : th.handleIncomingTime x.1 x.2.1 x.2.2.1 x.2.2.2 = th := by
        simp [TimeHandler.handleIncomingTime, h]
      simp only [TimeHandler.handleReplies, List.foldl_cons, hstep]
      exact ih

/-- Witness for C7: the scenario S4 numbers (asktime 100, start 200, finish
200.01, receipt 100.02) produce the literal offset formula, and a handler
that already knows its offset ignores replies. -/
theorem C7_first_response_wins_witness :
    TimeHandler.handleIncomingTime ⟨0, false, "follower"⟩ 100 200 (200 + 1/100)
        (100 + 1/50) =
      ⟨(200 + (200 + 1/100)) / 2 - (100 + (100 + 1/50)) / 2, true, "follower"⟩ ∧
    TimeHandler.handleIncomingTime ⟨0, true, "initiator"⟩ 1 2 3 4 =
      ⟨0, true, "initiator"⟩ ∧
    TimeHandler.handleReplies ⟨0, true, "initiator"⟩ [(1, 2, 3, 4)] =
      ⟨0, true, "initiator"⟩ :=
  ⟨C7_first_response_wins.1 ⟨0, false, "follower"⟩ 100 200 (200 + 1/100) (100 + 1/50) rfl,
    C7_first_response_wins.2.1 ⟨0, true, "initiator"⟩ 1 2 3 4 rfl,
    C7_first_response_wins.2.2 ⟨0, true, "initiator"⟩ [(1, 2, 3, 4)] rfl⟩

theorem aos_runOp_items {β : Type} [DecidableEq β] (s : AddOnlySet β) (op : AOSOp β) :
    (s.runOp op).items = s.items ∪ op.elems.toFinset := by
  cases op with
  | update y =>
    show (s.update y).1.items = s.items ∪ y.toFinset
    unfold AddOnlySet.update
    by_cases hd : y.toFinset \ s.items = ∅
    · simp [hd, Finset.union_eq_left.mpr (Finset.sdiff_eq_empty_iff_subset.mp hd)]
    · simp [hd, Finset.union_sdiff_self_eq_union]
  | add x =>
    show (s.add x).1.items = s.items ∪ [x].toFinset
    unfold AddOnlySet.add
    by_cases hx : x ∈ s.items
    · simp [hx, Finset.union_eq_left.mpr (Finset.singleton_subset_iff.mpr hx)]
    · simp [hx, Finset.insert_eq, Finset.union_comm]
  | receive y =>
    show (s.netUpdate y).1.items = s.items ∪ y.toFinset
    unfold AddOnlySet.netUpdate
    by_cases hd : y.toFinset \ s.items = ∅
    · simp [hd, Finset.union_eq_left.mpr (Finset.sdiff_eq_empty_iff_subset.mp hd)]
    · simp [hd, Finset.union_sdiff_self_eq_union]

theorem aos_runAll_items {β : Type} [DecidableEq β] :
    ∀ (ops : List (AOSOp β)) (s : AddOnlySet β),
      (s.runAll ops).items = s.items ∪ (ops.flatMap AOSOp.elems).toFinset
  | [], s => by simp [AddOnlySet.runAll]
  | op :: ops, s => by
    simp only [AddOnlySet.runAll, List.foldl_cons]
    rw [show List.foldl AddOnlySet.runOp (s.runOp op) ops = (s.runOp op).runAll ops from rfl,
      aos_runAll_items ops (s.runOp op), aos_runOp_items]
    simp [Finset.union_assoc]

/-- C9: `update(y)` inserts exactly the difference `d = set(y) - items` and
broadcasts exactly `d` when non-empty, and changes nothing and broadcasts
nothing when `d` is empty; `add(x)` broadcasts the one-element collection
`{x}` iff `x` was absent; no operation removes an element, so after any
sequence of operations `items` equals the initial set united with every
element ever observed. -/
theorem C9_grow_only_set :
    (∀ (β : Type) [DecidableEq β] (s : AddOnlySet β) (y : List β),
      (s.update y).1.items = s.items ∪ y.toFinset ∧
      (s.update y).2 = (if y.toFinset \ s.items = ∅ then none
        else some (y.toFinset \ s.items)) ∧
      (y.toFinset \ s.items = ∅ → (s.update y).1 = s ∧ (s.update y).2 = none)) ∧
    (∀ (β : Type) [DecidableEq β] (s : AddOnlySet β) (x : β),
      (s.add x).2 = if x ∈ s.items then none else some {x}) ∧
    (∀ (β : Type) [DecidableEq β] (s : AddOnlySet β) (op : AOSOp β),
      s.items ⊆ (s.runOp op).items) ∧
    (∀ (β : Type) [DecidableEq β] (s : AddOnlySet β) (ops : List (AOSOp β)),
      (s.runAll ops).items = s.items ∪ (ops.flatMap AOSOp.elems).toFinset) := by
  refine ⟨?_, ?_, ?_, ?_⟩
  · intro β inst s y
    refine ⟨?_, ?_, ?_⟩
    · exact aos_runOp_items s (AOSOp.update y)
    · unfold AddOnlySet.update
      by_cases hd : y.toFinset \ s.items = ∅ <;> simp [hd]
    · intro hd
      unfold AddOnlySet.update
      simp [hd]
  · intro β inst s x
    unfold AddOnlySet.add
    by_cases hx : x ∈ s.items <;> simp [hx]
  · intro β inst s op
    rw [aos_runOp_items]
    exact Finset.subset_union_left
  · intro β inst s ops
    exact aos_runAll_items ops s

/-- Witness for C9: an update whose difference is empty is a no-op on a
concrete set, and a concrete run accumulates the union. -/
theorem C9_grow_only_set_witness :
    (((⟨{1}⟩ : AddOnlySet ℕ).update [1]).1 = ⟨{1}⟩ ∧
      ((⟨{1}⟩ : AddOnlySet ℕ).update [1]).2 = none) ∧
    ((⟨{1}⟩ : AddOnlySet ℕ).runAll [AOSOp.add 2, AOSOp.receive [3]]).items =
      ({1} : Finset ℕ) ∪
        (([AOSOp.add 2, AOSOp.receive [3]] : List (AOSOp ℕ)).flatMap AOSOp.elems).toFinset :=
  ⟨(C9_grow_only_set.1 ℕ ⟨{1}⟩ [1]).2.2 (by decide),
    C9_grow_only_set.2.2.2 ℕ ⟨{1}⟩ [AOSOp.add 2, AOSOp.receive [3]]⟩

theorem hs_actuallySetValue_of_win {α : Type} {h : HighScore α} {v : α} {s tb : ℚ}
    (hw : (h.actuallySetValue v s tb).2 = true) :
    (h.actuallySetValue v s tb).1.value = v ∧ (h.actuallySetValue v s tb).1.score = s := by
  unfold HighScore.actuallySetValue at hw ⊢
  split_ifs at hw ⊢ <;> simp_all

/-- C10: a local `set_value` call never invokes a registered listener — its
listener output is empty even when the suggestion wins and is broadcast —
while an inbound observation that wins invokes the listeners with the new
winning pair; consequently a run consisting solely of local `set_value`
calls fires no listener at all. -/
theorem C10_local_set_value_never_fires_listeners :
    (∀ (α : Type) (h : HighScore α) (v : α) (s tb : ℚ),
      (h.setValue v s tb).2.2 = []) ∧
    (∀ (α : Type) (h : HighScore α) (v : α) (s tb : ℚ),
      (h.actuallySetValue v s tb).2 = true →
      (h.setValue v s tb).2.1 = some (h.actuallySetValue v s tb).1.getHistory ∧
      (h.setValueFromNet v s tb).2 = [(v, s)]) ∧
    (∀ (α : Type) (h : HighScore α) (ops : List (HSOp α)),
      (∀ op ∈ ops, op.isLocal = true) → (h.run ops).2 = []) := by
  refine ⟨?_, ?_, ?_⟩
  · intro α h v s tb
    simp only [HighScore.setValue]
    split <;> rfl
  · intro α h v s tb hw
    constructor
    · simp only [HighScore.setValue, hw, if_true]
    · simp only [HighScore.setValueFromNet, hw, if_true]
      have h2 := hs_actuallySetValue_of_win hw
      simp [HighScore.getPair, h2.1, h2.2]
  · intro α h ops hops
    induction ops generalizing h with
    | nil => rfl
    | cons op ops ih =>
      have hop := hops op (List.mem_cons_self op ops)
      cases op with
      | localSet v s tb =>
        have h2 : (h.runOp (HSOp.localSet v s tb)).2 = [] := by
          simp only [HighScore.runOp, HighScore.setValue]
          split <;> rfl
        simp only [HighScore.run, h2, List.nil_append]
        exact ih _ fun o ho => hops o (List.mem_cons_of_mem _ ho)
      | netReceive v s tb => simp [HSOp.isLocal] at hop

/-- Witness for C10: a winning local suggestion on a concrete register fires
no listener while the same observation arriving from the network fires the
listeners with the new pair; a two-call local run fires none. -/
theorem C10_local_set_value_never_fires_listeners_witness :
    ((⟨0, 0, 0, false⟩ : HighScore ℕ).setValue 1 1 0).2.2 = [] ∧
    ((⟨0, 0, 0, false⟩ : HighScore ℕ).setValueFromNet 1 1 0).2 = [(1, (1 : ℚ))] ∧
    ((⟨0, 0, 0, false⟩ : HighScore ℕ).run
        [HSOp.localSet 1 1 0, HSOp.localSet 2 2 0]).2 = [] :=
  ⟨C10_local_set_value_never_fires_listeners.1 ℕ ⟨0, 0, 0, false⟩ 1 1 0,
    (C10_local_set_value_never_fires_listeners.2.1 ℕ ⟨0, 0, 0, false⟩ 1 1 0 (by decide)).2,
    C10_local_set_value_never_fires_listeners.2.2 ℕ ⟨0, 0, 0, false⟩
      [HSOp.localSet 1 1 0, HSOp.localSet 2 2 0] (by decide)⟩

theorem TubeBox.run_append {L C : Type} :
    ∀ (ops1 ops2 : List (TBOp L C)) (tb : TubeBox L C),
      tb.run (ops1 ++ ops2) =
        (((tb.run ops1).1.run ops2).1,
          (tb.run ops1).2 ++ ((tb.run ops1).1.run ops2).2)
  | [], _, _ => rfl
  | op :: ops1, ops2, tb => by
    have ih := TubeBox.run_append ops1 ops2 (tb.step op).1
    simp only [List.cons_append, TubeBox.run, List.append_eq]
    rw [ih]
    simp [List.append_assoc]

theorem TubeBox.run_noInsert_unlatched {L C : Type} :
    ∀ (ops : List (TBOp L C)) (ls : List L),
      (∀ op ∈ ops, op.isInsert = false) →
      TubeBox.run ⟨none, ls⟩ ops = (⟨none, ls ++ ops.filterMap TBOp.listenerOf⟩, [])
  | [], ls, _ => by simp [TubeBox.run]
  | op :: ops, ls, hops => by
    cases op with
    | register l =>
      have ih := TubeBox.run_noInsert_unlatched ops (ls ++ [l])
        (fun o ho => hops o (List.mem_cons_of_mem _ ho))
      simp only [TubeBox.run, TubeBox.step, ih]
      simp [List.filterMap_cons, TBOp.listenerOf, List.append_assoc]
    | insert c b =>
      have hcontra := hops _ (List.mem_cons_self _ _)
      simp [TBOp.isInsert] at hcontra

theorem TubeBox.run_noInsert_latched {L C : Type} :
    ∀ (ops : List (TBOp L C)) (ls : List L) (c : C) (b : Bool),
      (∀ op ∈ ops, op.isInsert = false) →
      TubeBox.run ⟨some (c, b), ls⟩ ops =
        (⟨some (c, b), ls ++ ops.filterMap TBOp.listenerOf⟩,
          (ops.filterMap TBOp.listenerOf).map fun l => (l, c, b))
  | [], ls, c, b, _ => by simp [TubeBox.run]
  | op :: ops, ls, c, b, hops => by
    cases op with
    | register l =>
      have ih := TubeBox.run_noInsert_latched ops (ls ++ [l]) c b
        (fun o ho => hops o (List.mem_cons_of_mem _ ho))
      simp only [TubeBox.run, TubeBox.step, ih]
      simp [List.filterMap_cons, TBOp.listenerOf, List.append_assoc]
    | insert c' b' =>
      have hcontra := hops _ (List.mem_cons_self _ _)
      simp [TBOp.isInsert] at hcontra

/-- C8 counterexample: after `register 0`, `insert 1 true`, a second
`insert 2 false` overwrites the latched channel (it changes from `(1, true)`
to `(2, false)`) and re-invokes the already-notified listener, so listener 0
is invoked twice — contradicting both "once set it never changes" and
"every listener is invoked exactly once" under a double insert. -/
theorem C8_counterexample :
    TubeBox.run (TubeBox.empty : TubeBox ℕ ℕ)
        [TBOp.register 0, TBOp.insert 1 true, TBOp.insert 2 false] =
      (⟨some (2, false), [0]⟩, [(0, 1, true), (0, 2, false)]) ∧
    (TubeBox.run (TubeBox.empty : TubeBox ℕ ℕ)
        [TBOp.register 0, TBOp.insert 1 true, TBOp.insert 2 false]).2.map Prod.fst =
      [0, 0] := by
  constructor
  · decide
  · decide

/-- C8 as amended: provided `insert_tube` is called at most once, the channel
is latched to that single insert's `(channel, is_initiator)` and never
changes, and every registered listener is invoked exactly once with that
pair — synchronously at registration when the channel is already present,
otherwise at latching — in registration order; with no insert at all nothing
is latched and no listener is invoked. -/
theorem C8_single_insert :
    (∀ (L C : Type) (pre post : List (TBOp L C)) (c : C) (b : Bool),
      (∀ op ∈ pre, op.isInsert = false) → (∀ op ∈ post, op.isInsert = false) →
      TubeBox.run TubeBox.empty (pre ++ TBOp.insert c b :: post) =
        (⟨some (c, b), (pre ++ TBOp.insert c b :: post).filterMap TBOp.listenerOf⟩,
          ((pre ++ TBOp.insert c b :: post).filterMap TBOp.listenerOf).map
            fun l => (l, c, b))) ∧
    (∀ (L C : Type) (ops : List (TBOp L C)),
      (∀ op ∈ ops, op.isInsert = false) →
      TubeBox.run TubeBox.empty ops = (⟨none, ops.filterMap TBOp.listenerOf⟩, [])) := by
  constructor
  · intro L C pre post c b hpre hpost
    show TubeBox.run ⟨none, []⟩ (pre ++ TBOp.insert c b :: post) = _
    rw [TubeBox.run_append pre (TBOp.insert c b :: post) ⟨none, []⟩,
      TubeBox.run_noInsert_unlatched pre [] hpre]
    simp only [TubeBox.run, TubeBox.step, List.nil_append]
    rw [TubeBox.run_noInsert_latched post _ c b hpost]
    simp [List.filterMap_append, List.filterMap_cons, TBOp.listenerOf,
      List.map_append]
  · intro L C ops hops
    show TubeBox.run ⟨none, []⟩ ops = _
    rw [TubeBox.run_noInsert_unlatched ops [] hops]
    simp

/-- Witness for C8: a register before and a register after a single insert
are each invoked exactly once with the inserted pair, in registration
order. -/
theorem C8_single_insert_witness :
    TubeBox.run (TubeBox.empty : TubeBox ℕ ℕ)
        [TBOp.register 0, TBOp.insert 5 true, TBOp.register 1] =
      (⟨some (5, true), [0, 1]⟩, [(0, 5, true), (1, 5, true)]) :=
  (C8_single_insert.1 ℕ ℕ [TBOp.register 0] [TBOp.register 1] 5 true (by decide)
    (by decide)).trans (by decide)

theorem hs_applyObs_breakTies {α : Type} (h : HighScore α) (o : Obs α) :
    (h.applyObs o).breakTies = h.breakTies := by
  unfold HighScore.applyObs HighScore.actuallySetValue
  split_ifs <;> rfl

theorem hs_applyObs_tiebreaker_bt_false {α : Type} {h : HighScore α}
    (hbt : h.breakTies = false) (o : Obs α) :
    (h.applyObs o).tiebreaker = h.tiebreaker := by
  unfold HighScore.applyObs HighScore.actuallySetValue
  simp only [hbt, Bool.false_eq_true, if_false]
  split_ifs <;> rfl

theorem hs_win_iff {α : Type} (h : HighScore α) (o : Obs α) :
    (h.actuallySetValue o.value o.score o.tb).2 = true ↔
      h.stateKey < obsKey h.breakTies o := by
  unfold HighScore.actuallySetValue HighScore.stateKey obsKey
  by_cases hbt : h.breakTies = true
  · simp only [hbt, if_true]
    rw [Prod.Lex.lt_iff]
    split_ifs with hc
    · simp [hc]
    · simp [hc]
  · simp only [hbt, if_false]
    have hbt' : h.breakTies = false := by simpa using hbt
    simp only [hbt', Bool.false_eq_true, if_false]
    rw [Prod.Lex.lt_iff]
    split_ifs with hc
    · simp [hc]
    · simp [hc]

theorem hs_applyObs_of_win {α : Type} {h : HighScore α} {o : Obs α}
    (hw : h.stateKey < obsKey h.breakTies o) : h.applyObs o = winState h o := by
  have hw' := (hs_win_iff h o).mpr hw
  unfold HighScore.applyObs winState
  unfold HighScore.actuallySetValue at hw' ⊢
  split_ifs at hw' ⊢ <;> simp_all

theorem hs_applyObs_of_not_win {α : Type} {h : HighScore α} {o : Obs α}
    (hw : ¬ h.stateKey < obsKey h.breakTies o) : h.applyObs o = h := by
  have hw' : (h.actuallySetValue o.value o.score o.tb).2 = false := by
    rw [← Bool.not_eq_true, hs_win_iff]
    exact hw
  unfold HighScore.applyObs
  unfold HighScore.actuallySetValue at hw' ⊢
  split_ifs at hw' ⊢ <;> simp_all

theorem hs_winState_key {α : Type} (h : HighScore α) (o : Obs α) :
    (winState h o).stateKey = obsKey h.breakTies o := by
  unfold winState HighScore.stateKey obsKey
  by_cases hbt : h.breakTies = true <;> simp [hbt]

theorem hs_applyObs_key {α : Type} (h : HighScore α) (o : Obs α) :
    (h.applyObs o).stateKey = max h.stateKey (obsKey h.breakTies o) := by
  by_cases hw : h.stateKey < obsKey h.breakTies o
  · rw [hs_applyObs_of_win hw, max_eq_right (le_of_lt hw), hs_winState_key]
  · rw [hs_applyObs_of_not_win hw, max_eq_left (le_of_not_lt hw)]

theorem hs_applyAll_key {α : Type} :
    ∀ (l : List (Obs α)) (h : HighScore α),
      (h.applyAll l).stateKey = (l.map (obsKey h.breakTies)).foldl max h.stateKey
  | [], _ => rfl
  | o :: l, h => by
    simp only [HighScore.applyAll, List.foldl_cons, List.map_cons]
    rw [show List.foldl HighScore.applyObs (h.applyObs o) l = (h.applyObs o).applyAll l
        from rfl,
      hs_applyAll_key l (h.applyObs o), hs_applyObs_key, hs_applyObs_breakTies]

theorem hs_applyAll_of_all_not_win {α : Type} :
    ∀ (l : List (Obs α)) (h : HighScore α),
      (∀ o ∈ l, ¬ h.stateKey < obsKey h.breakTies o) → h.applyAll l = h
  | [], _, _ => rfl
  | o :: l, h, hno => by
    have h0 : h.applyObs o = h := hs_applyObs_of_not_win (hno o (List.mem_cons_self o l))
    simp only [HighScore.applyAll, List.foldl_cons, h0]
    exact hs_applyAll_of_all_not_win l h fun o' ho' => hno o' (List.mem_cons_of_mem _ ho')

theorem hs_applyAll_eq_winState {α : Type} :
    ∀ (l : List (Obs α)) (h : HighScore α) (o : Obs α),
      o ∈ l → (∀ o' ∈ l, o' ≠ o → obsKey h.breakTies o' < obsKey h.breakTies o) →
      h.stateKey < obsKey h.breakTies o → h.applyAll l = winState h o
  | [], _, _, ho, _, _ => absurd ho (List.not_mem_nil _)
  | x :: l, h, o, ho, hmax, hgt => by
    by_cases hxo : x = o
    · subst hxo
      have h1 : h.applyObs x = winState h x := hs_applyObs_of_win hgt
      simp only [HighScore.applyAll, List.foldl_cons, h1]
      refine hs_applyAll_of_all_not_win l (winState h x) ?_
      intro o' ho' hlt
      rw [show (winState h x).breakTies = h.breakTies from rfl, hs_winState_key] at hlt
      by_cases ho'x : o' = x
      · subst ho'x
        exact lt_irrefl _ hlt
      · exact absurd hlt (not_lt_of_gt (hmax o' (List.mem_cons_of_mem _ ho') ho'x))
    · have ho' : o ∈ l := (List.mem_cons.mp ho).resolve_left fun he => hxo he.symm
      have hbt : (h.applyObs x).breakTies = h.breakTies := hs_applyObs_breakTies h x
      have hkey : (h.applyObs x).stateKey = max h.stateKey (obsKey h.breakTies x) :=
        hs_applyObs_key h x
      have hgt' : (h.applyObs x).stateKey < obsKey (h.applyObs x).breakTies o := by
        rw [hbt, hkey]
        exact max_lt hgt (hmax x (List.mem_cons_self x l) hxo)
      have hmax' : ∀ o'' ∈ l, o'' ≠ o →
          obsKey (h.applyObs x).breakTies o'' < obsKey (h.applyObs x).breakTies o := by
        intro o'' ho'' hne
        rw [hbt]
        exact hmax o'' (List.mem_cons_of_mem _ ho'') hne
      have hwin' : winState (h.applyObs x) o = winState h o := by
        unfold winState
        rw [hbt]
        by_cases hb : h.breakTies = true
        · simp [hb]
        · have hb' : h.breakTies = false := by simpa using hb
          have htb := hs_applyObs_tiebreaker_bt_false hb' x
          simp [hb', htb]
      simp only [HighScore.applyAll, List.foldl_cons]
      rw [show List.foldl HighScore.applyObs (h.applyObs x) l = (h.applyObs x).applyAll l
          from rfl,
        hs_applyAll_eq_winState l (h.applyObs x) o ho' hmax' hgt']
      exact hwin'

/-- C3 counterexample: with `break_ties = False` two replicas that have
observed the same set of observations need not hold the same pair when two
observations carry equal scores: `_actually_set_value` keeps the incumbent
on a tie, so the pair depends on arrival order (the source's own docstring
concedes that "in the event of a tie, coherence cannot be guaranteed"). -/
theorem C3_counterexample :
    (HighScore.applyAll ⟨"init", 0, 0, false⟩
        [⟨"red", 5, 0⟩, ⟨"blue", 5, 0⟩]).value = "red" ∧
    (HighScore.applyAll ⟨"init", 0, 0, false⟩
        [⟨"blue", 5, 0⟩, ⟨"red", 5, 0⟩]).value = "blue" ∧
    HighScore.applyAll ⟨"init", 0, 0, false⟩ [⟨"red", 5, 0⟩, ⟨"blue", 5, 0⟩] ≠
      HighScore.applyAll ⟨"init", 0, 0, false⟩ [⟨"blue", 5, 0⟩, ⟨"red", 5, 0⟩] := by
  refine ⟨rfl, rfl, ?_⟩
  decide

/-- C3 as amended: after any interleaving of local `set_value` calls and
inbound deliveries (both reach `_actually_set_value` with the same
comparison), the stored key — `(score, tiebreaker)` lexicographically when
ties are broken, `score` alone otherwise — equals the maximum over the
initial state and every observation; and when one observation's key strictly
dominates the initial key and every other observation's key (as happens with
probability one when `break_ties` is enabled and scores tie), the final
state equals exactly that winning observation, independently of delivery
order, so two replicas with the same observations converge.  Without
tie-breaking, equal top scores are kept first-arrival-wins and replicas may
diverge (see the counterexample). -/
theorem C3_lww_register_convergence :
    (∀ (α : Type) (h : HighScore α) (l : List (Obs α)),
      (h.applyAll l).stateKey = (l.map (obsKey h.breakTies)).foldl max h.stateKey) ∧
    (∀ (α : Type) (h : HighScore α) (l l' : List (Obs α)) (o : Obs α),
      o ∈ l →
      (∀ o' ∈ l, o' ≠ o → obsKey h.breakTies o' < obsKey h.breakTies o) →
      h.stateKey < obsKey h.breakTies o →
      List.Perm l l' →
      h.applyAll l = winState h o ∧ h.applyAll l' = h.applyAll l) := by
  constructor
  · intro α h l
    exact hs_applyAll_key l h
  · intro α h l l' o ho hmax hgt hp
    have e1 := hs_applyAll_eq_winState l h o ho hmax hgt
    have e2 := hs_applyAll_eq_winState l' h o (hp.mem_iff.mp ho)
      (fun o' ho' => hmax o' (hp.mem_iff.mpr ho')) hgt
    exact ⟨e1, e2.trans e1.symm⟩

/-- Witness for C3: a tie on score 5 resolved by distinct tiebreakers — the
observation with tiebreaker 3/4 wins on both replicas regardless of the
delivery order. -/
theorem C3_lww_register_convergence_witness :
    HighScore.applyAll ⟨0, 0, 1/2, true⟩ [⟨1, 5, 1/4⟩, ⟨2, 5, 3/4⟩] =
      winState ⟨0, 0, 1/2, true⟩ ⟨2, 5, 3/4⟩ ∧
    HighScore.applyAll ⟨0, 0, 1/2, true⟩ [⟨2, 5, 3/4⟩, ⟨1, 5, 1/4⟩] =
      HighScore.applyAll (⟨0, 0, 1/2, true⟩ : HighScore ℕ) [⟨1, 5, 1/4⟩, ⟨2, 5, 3/4⟩] :=
  C3_lww_register_convergence.2 ℕ ⟨0, 0, 1/2, true⟩
    [⟨1, 5, 1/4⟩, ⟨2, 5, 3/4⟩] [⟨2, 5, 3/4⟩, ⟨1, 5, 1/4⟩] ⟨2, 5, 3/4⟩
    (by decide) (by decide) (by decide) (by decide)

end DObject

end RatReducible
